import Mathlib

/-!
Verification of the chunking / grouping / summary-aggregation core of the
ai-summarized-news repository.

The TypeScript sources are shallowly embedded here:
* `src/backend/src/types/chunking.ts` — `estimateTokenCount`, `findTextBoundaries`,
  the chunking configuration and the chunk/group records;
* the content-chunker worker — `chunkText`, `fallbackChunking`, `getOverlapText`,
  `createChunkGroups`, `saveChunks`;
* the chunk-group summarizer worker — `storePartialSummary`, `getPartialSummaries`,
  `createFinalSummary`.

Texts are modelled as `List Char` (`Str`), mirroring JavaScript strings as
sequences of code units: `s.length`, `s.slice(a, b)`, `s.trim()` translate to
`List.length`, `slice`, `trim` below.  JavaScript regular expressions used by
`findTextBoundaries` are embedded as explicit scanning functions implementing
the exec-with-global-flag semantics (leftmost, non-overlapping matches;
greedy/lazy quantifiers resolved by hand for each concrete pattern).
Database and network effects are modelled by oracle parameters.
-/

/-- Strings are lists of code units, as in the JavaScript runtime. -/
abbrev Str := List Char

/-- The whitespace class of the JavaScript `\s` regex class and `String.trim`,
restricted to the ASCII range (the sources only ever introduce ASCII whitespace). -/
def isWs (c : Char) : Bool :=
  c == ' ' || c == '\t' || c == '\n' || c == '\r' || c == '\x0b' || c == '\x0c'

/-- Character at an index; out-of-range reads yield the NUL sentinel, which is
neither whitespace nor any character the matchers look for. -/
def charAt (s : Str) (i : Nat) : Char := s.getD i '\x00'

/-- JavaScript `String.prototype.trim`. -/
def trim (s : Str) : Str :=
  ((s.dropWhile isWs).reverse.dropWhile isWs).reverse

/-- Erase every whitespace character; used to state "up to whitespace
normalization" properties. -/
def stripWs (s : Str) : Str := s.filter (fun c => !(isWs c))

/-- JavaScript `s.slice(a, b)` for `0 ≤ a`, with the usual clamping. -/
def jsSlice (s : Str) (a b : Nat) : Str := (s.drop a).take (b - a)

/-- Embeds `estimateTokenCount` from `chunking.ts`: `Math.ceil(text.length / 4)`. -/
def estimateTokenCount (text : Str) : Nat := (text.length + 3) / 4

/-! ### Boundary detection (`findTextBoundaries` in `chunking.ts`)

Each regex of the source is embedded as a scanner that returns the list of
(start, end) half-open match spans, in the order produced by repeated
`regex.exec` calls with the global flag. -/

/-- Length of the maximal whitespace run starting at `j`. -/
def wsRunLen (cs : Str) (j : Nat) : Nat := ((cs.drop j).takeWhile isWs).length

/-- Index of the last `'\n'` among positions `j, j+1, …, j+r-1`, if any.
This resolves the greedy backtracking of `\n\s*\n`: the second `\n` of the
pattern is the last newline inside the whitespace run following the first. -/
def lastNlIn (cs : Str) (j r : Nat) : Option Nat :=
  (((List.range r).filter (fun k => decide (charAt cs (j + k) = '\n'))).getLast?).map
    (fun k => j + k)

/-- Scanner for the paragraph regex `/\n\s*\n/g`. -/
def paraGo (cs : Str) : Nat → Nat → List (Nat × Nat)
  | 0, _ => []
  | fuel + 1, pos =>
    if pos < cs.length then
      if charAt cs pos = '\n' then
        match lastNlIn cs (pos + 1) (wsRunLen cs (pos + 1)) with
        | some m => (pos, m + 1) :: paraGo cs fuel (m + 1)
        | none => paraGo cs fuel (pos + 1)
      else paraGo cs fuel (pos + 1)
    else []

/-- All matches of `/\n\s*\n/g`. -/
def paragraphMatches (cs : Str) : List (Nat × Nat) := paraGo cs (cs.length + 1) 0

/-- Length of the maximal `'#'` run starting at `j`. -/
def hashRunLen (cs : Str) (j : Nat) : Nat :=
  ((cs.drop j).takeWhile (fun c => c == '#')).length

/-- Index of the first `'\n'` at a position `≥ m`, if any. -/
def firstNlFrom (cs : Str) (m : Nat) : Option Nat :=
  (((List.range (cs.length - m)).filter
      (fun k => decide (charAt cs (m + k) = '\n'))).head?).map (fun k => m + k)

/-- Backtracking over the `\s+` of `/\n#+\s+.+\n/`: try the largest split
first (`m` counts how many whitespace characters `\s+` keeps).  At split `m`
the `.+` must start with a non-newline character and a closing newline must
exist; the match then ends just past that newline. -/
def sectionTry (cs : Str) (a : Nat) : Nat → Option Nat
  | 0 => none
  | k + 1 =>
    let m := a + (k + 1)
    if m < cs.length ∧ charAt cs m ≠ '\n' then
      match firstNlFrom cs m with
      | some c => some (c + 1)
      | none => sectionTry cs a k
    else sectionTry cs a k

/-- Match attempt of `/\n#+\s+.+\n/` at position `pos`. -/
def sectionMatchAt (cs : Str) (pos : Nat) : Option Nat :=
  if charAt cs pos = '\n' then
    let h := hashRunLen cs (pos + 1)
    if h = 0 then none
    else sectionTry cs (pos + 1 + h) (wsRunLen cs (pos + 1 + h))
  else none

/-- Scanner for the section-header regex `/\n#+\s+.+\n/g`. -/
def sectionGo (cs : Str) : Nat → Nat → List (Nat × Nat)
  | 0, _ => []
  | fuel + 1, pos =>
    if pos < cs.length then
      match sectionMatchAt cs pos with
      | some e => (pos, e) :: sectionGo cs fuel e
      | none => sectionGo cs fuel (pos + 1)
    else []

/-- All matches of `/\n#+\s+.+\n/g`. -/
def sectionMatches (cs : Str) : List (Nat × Nat) := sectionGo cs (cs.length + 1) 0

/-- The triple-backtick fence delimiter (spelled via code points to keep the
file free of literal backticks). -/
def fence : Str := [Char.ofNat 96, Char.ofNat 96, Char.ofNat 96]

/-- The `<pre>` opening delimiter. -/
def preOpen : Str := ("<pre>").toList

/-- The `</pre>` closing delimiter. -/
def preClose : Str := ("</pre>").toList

/-- Does `pat` occur in `cs` starting exactly at `i`? -/
def subAt (cs pat : Str) (i : Nat) : Bool := decide ((cs.drop i).take pat.length = pat)

/-- First occurrence of `pat` at a position `≥ i` (resolves the lazy
`[\s\S]*?` of the code-block regex). -/
def findFrom (cs pat : Str) : Nat → Nat → Option Nat
  | 0, _ => none
  | fuel + 1, i =>
    if subAt cs pat i then some i
    else if i < cs.length then findFrom cs pat fuel (i + 1)
    else none

/-- Match attempt of the code-block regex at `pos`: a backtick fence pair, or
else a `<pre>…</pre>` pair, always the shortest (lazy) body. -/
def codeMatchAt (cs : Str) (pos : Nat) : Option Nat :=
  if subAt cs fence pos then
    match findFrom cs fence (cs.length + 1) (pos + 3) with
    | some j => some (j + 3)
    | none => none
  else if subAt cs preOpen pos then
    match findFrom cs preClose (cs.length + 1) (pos + 5) with
    | some j => some (j + 6)
    | none => none
  else none

/-- Scanner for the code-block regex. -/
def codeGo (cs : Str) : Nat → Nat → List (Nat × Nat)
  | 0, _ => []
  | fuel + 1, pos =>
    if pos < cs.length then
      match codeMatchAt cs pos with
      | some e => (pos, e) :: codeGo cs fuel e
      | none => codeGo cs fuel (pos + 1)
    else []

/-- All matches of the code-block regex. -/
def codeBlockMatches (cs : Str) : List (Nat × Nat) := codeGo cs (cs.length + 1) 0

/-- ASCII upper-case letters, the `[A-Z]` class. -/
def isUpper (c : Char) : Bool := decide ('A' ≤ c ∧ c ≤ 'Z')

/-- Scanner for the sentence regex `/[.!?]\s+(?=[A-Z])/g`: terminal
punctuation, a non-empty whitespace run, and an upper-case letter looked
ahead (not consumed). -/
def sentGo (cs : Str) : Nat → Nat → List (Nat × Nat)
  | 0, _ => []
  | fuel + 1, pos =>
    if pos < cs.length then
      if charAt cs pos = '.' ∨ charAt cs pos = '!' ∨ charAt cs pos = '?' then
        let r := wsRunLen cs (pos + 1)
        if 0 < r ∧ isUpper (charAt cs (pos + 1 + r)) then
          (pos, pos + 1 + r) :: sentGo cs fuel (pos + 1 + r)
        else sentGo cs fuel (pos + 1)
      else sentGo cs fuel (pos + 1)
    else []

/-- All matches of the sentence regex. -/
def sentenceMatches (cs : Str) : List (Nat × Nat) := sentGo cs (cs.length + 1) 0

/-- The four boundary kinds of `chunking.ts` (`section` is spelled
`sectionHeader` because `section` is a Lean keyword). -/
inductive BoundaryType where
  | paragraph
  | sentence
  | sectionHeader
  | code_block
deriving DecidableEq, Repr

/-- Embeds `TextBoundary` from `chunking.ts`. -/
structure TextBoundary where
  index : Nat
  type : BoundaryType
  priority : Nat
deriving DecidableEq, Repr

/-- The ordering `(a, b) => a.index - b.index` used by `Array.prototype.sort`. -/
def boundaryLe (a b : TextBoundary) : Prop := a.index ≤ b.index

instance : DecidableRel boundaryLe := fun a b => Nat.decLe a.index b.index

instance : IsTotal TextBoundary boundaryLe := ⟨fun a b => Nat.le_total a.index b.index⟩

instance : IsTrans TextBoundary boundaryLe := ⟨fun _ _ _ => Nat.le_trans⟩

/-- Embeds `findTextBoundaries` from `chunking.ts`: paragraph, section, code-block
(start and end) and sentence candidates, merged and sorted ascending by
offset, duplicates retained.  `Array.prototype.sort` is a stable sort, and any
stable sort by offset produces the same list; `List.insertionSort` (also
stable) models it. -/
def findTextBoundaries (text : Str) : List TextBoundary :=
  List.insertionSort boundaryLe
    ((paragraphMatches text).map (fun m => TextBoundary.mk m.2 .paragraph 100) ++
     (sectionMatches text).map (fun m => TextBoundary.mk m.2 .sectionHeader 90) ++
     (codeBlockMatches text).flatMap
       (fun m => [TextBoundary.mk m.1 .code_block 85, TextBoundary.mk m.2 .code_block 85]) ++
     (sentenceMatches text).map (fun m => TextBoundary.mk (m.1 + 1) .sentence 50))


/-! ### Chunking configuration and the chunk packer (content-chunker worker) -/

/-- Embeds `ChunkingConfig` from `chunking.ts`. -/
structure ChunkingConfig where
  maxTokensPerChunk : Nat
  minTokensPerChunk : Nat
  overlapTokens : Nat
  chunksPerGroup : Nat
  maxChunksPerGroup : Nat
  maxCharsPerChunk : Nat
  minCharsPerChunk : Nat
  overlapChars : Nat
deriving DecidableEq, Repr

/-- Embeds `DEFAULT_CHUNKING_CONFIG` from `chunking.ts`. -/
def DEFAULT_CHUNKING_CONFIG : ChunkingConfig :=
  { maxTokensPerChunk := 1200
    minTokensPerChunk := 300
    overlapTokens := 100
    chunksPerGroup := 2
    maxChunksPerGroup := 3
    maxCharsPerChunk := 4800
    minCharsPerChunk := 1200
    overlapChars := 400 }

/-- JavaScript `s.lastIndexOf('. ')` on `s`, as an `Option` (the source
compares the `-1` failure value with `> overlapChars / 2`, which is always
false, so `none` and `-1` behave identically downstream). -/
def lastIndexOfDotSpace (s : Str) : Option Nat :=
  ((List.range s.length).filter
    (fun i => decide (charAt s i = '.' ∧ charAt s (i + 1) = ' '))).getLast?

/-- Embeds `getOverlapText` from the content-chunker worker.  `Math.max(0, chunk.length -
overlapChars)` is the truncated subtraction of `Nat`. -/
def getOverlapText (chunk : Str) (overlapTokens : Nat) : Str :=
  let overlapChars := overlapTokens * 4
  if chunk.length ≤ overlapChars then chunk
  else
    let startIndex := chunk.length - overlapChars
    let overlapSection := jsSlice chunk startIndex chunk.length
    match lastIndexOfDotSpace overlapSection with
    | some sentenceBoundary =>
      if sentenceBoundary > overlapChars / 2 then
        jsSlice chunk (startIndex + sentenceBoundary + 2) chunk.length
      else overlapSection
    | none => overlapSection

/-- Loop state of `chunkText`: the emitted chunks, the chunk being
accumulated, its running token estimate, and the previous boundary offset. -/
structure PackState where
  chunks : List Str
  currentChunk : Str
  currentTokens : Nat
  lastBoundary : Nat
deriving DecidableEq, Repr

/-- One iteration of the boundary loop in `chunkText`. -/
def packStep (cfg : ChunkingConfig) (text : Str) (st : PackState) (b : TextBoundary) :
    PackState :=
  let segmentText := jsSlice text st.lastBoundary b.index
  let segmentTokens := estimateTokenCount segmentText
  if st.currentTokens + segmentTokens > cfg.maxTokensPerChunk ∧ 0 < st.currentChunk.length then
    if st.currentTokens ≥ cfg.minTokensPerChunk then
      if 0 < cfg.overlapTokens then
        let overlapText := getOverlapText st.currentChunk cfg.overlapTokens
        { chunks := st.chunks ++ [trim st.currentChunk]
          currentChunk := overlapText ++ segmentText
          currentTokens := estimateTokenCount (overlapText ++ segmentText)
          lastBoundary := b.index }
      else
        { chunks := st.chunks ++ [trim st.currentChunk]
          currentChunk := segmentText
          currentTokens := segmentTokens
          lastBoundary := b.index }
    else
      { chunks := st.chunks
        currentChunk := st.currentChunk ++ segmentText
        currentTokens := st.currentTokens + segmentTokens
        lastBoundary := b.index }
  else
    { chunks := st.chunks
      currentChunk := st.currentChunk ++ segmentText
      currentTokens := st.currentTokens + segmentTokens
      lastBoundary := b.index }

/-- The character-window loop of `fallbackChunking`.  The source advances by
`maxChars - overlapChars` per iteration; a fuel argument bounds the loop
(when the step is positive, `text.length + 1` fuel is always enough; a
non-positive step would make the source loop forever). -/
def fallbackGo (cfg : ChunkingConfig) (text : Str) : Nat → Nat → List Str
  | 0, _ => []
  | fuel + 1, i =>
    if i < text.length then
      let chunk := jsSlice text i (i + cfg.maxCharsPerChunk)
      let rest := fallbackGo cfg text fuel (i + (cfg.maxCharsPerChunk - cfg.overlapChars))
      if 0 < (trim chunk).length then trim chunk :: rest else rest
    else []

/-- Embeds `fallbackChunking` from the content-chunker worker. -/
def fallbackChunking (cfg : ChunkingConfig) (text : Str) : List Str :=
  fallbackGo cfg text (text.length + 1) 0

/-- Embeds `chunkText` from the content-chunker worker (the unused `contentType`
parameter of the source is omitted). -/
def chunkText (cfg : ChunkingConfig) (text : Str) : List Str :=
  let boundaries := findTextBoundaries text ++ [TextBoundary.mk text.length .paragraph 100]
  let st := boundaries.foldl (packStep cfg text) (PackState.mk [] [] 0 0)
  let chunks :=
    if 0 < (trim st.currentChunk).length then st.chunks ++ [trim st.currentChunk]
    else st.chunks
  if chunks.length = 0 ∧ 0 < text.length then fallbackChunking cfg text else chunks

/-! ### A ghost-instrumented packer

`chunkTextSeeded` re-runs exactly the `chunkText` recursion but records, for
every emitted chunk, the overlap seed it started from, the body accumulated
after the seed (`seed ++ body` is the source's `currentChunk`), and the
running token estimate at the moment of emission.  It exists to state
coverage and minimum-size properties; its agreement with `chunkText` is
proved below (`chunkText_eq_seeded`). -/

/-- An emitted chunk with its ghost data. -/
structure SChunk where
  seed : Str
  body : Str
  tokens : Nat
deriving DecidableEq, Repr, Inhabited

/-- Loop state of `chunkTextSeeded`. -/
structure SPackState where
  chunks : List SChunk
  seed : Str
  body : Str
  currentTokens : Nat
  lastBoundary : Nat
deriving DecidableEq, Repr

/-- One iteration of the boundary loop, with ghost bookkeeping. -/
def spackStep (cfg : ChunkingConfig) (text : Str) (st : SPackState) (b : TextBoundary) :
    SPackState :=
  let segmentText := jsSlice text st.lastBoundary b.index
  let segmentTokens := estimateTokenCount segmentText
  if st.currentTokens + segmentTokens > cfg.maxTokensPerChunk ∧
      0 < (st.seed ++ st.body).length then
    if st.currentTokens ≥ cfg.minTokensPerChunk then
      if 0 < cfg.overlapTokens then
        let overlapText := getOverlapText (st.seed ++ st.body) cfg.overlapTokens
        { chunks := st.chunks ++ [SChunk.mk st.seed st.body st.currentTokens]
          seed := overlapText
          body := segmentText
          currentTokens := estimateTokenCount (overlapText ++ segmentText)
          lastBoundary := b.index }
      else
        { chunks := st.chunks ++ [SChunk.mk st.seed st.body st.currentTokens]
          seed := []
          body := segmentText
          currentTokens := segmentTokens
          lastBoundary := b.index }
    else
      { chunks := st.chunks
        seed := st.seed
        body := st.body ++ segmentText
        currentTokens := st.currentTokens + segmentTokens
        lastBoundary := b.index }
  else
    { chunks := st.chunks
      seed := st.seed
      body := st.body ++ segmentText
      currentTokens := st.currentTokens + segmentTokens
      lastBoundary := b.index }

/-- Ghost-instrumented fallback windows: the seed of the window starting at
`i > 0` is its first `overlapChars` characters, which the previous window
already covered. -/
def fallbackSeededGo (cfg : ChunkingConfig) (text : Str) : Nat → Nat → List SChunk
  | 0, _ => []
  | fuel + 1, i =>
    if i < text.length then
      let chunk := jsSlice text i (i + cfg.maxCharsPerChunk)
      let seed := if i = 0 then [] else jsSlice text i (i + cfg.overlapChars)
      let body :=
        if i = 0 then chunk else jsSlice text (i + cfg.overlapChars) (i + cfg.maxCharsPerChunk)
      let rest := fallbackSeededGo cfg text fuel (i + (cfg.maxCharsPerChunk - cfg.overlapChars))
      if 0 < (trim chunk).length then
        SChunk.mk seed body (estimateTokenCount chunk) :: rest
      else rest
    else []

/-- Run of `chunkText` with ghost data. -/
def chunkTextSeeded (cfg : ChunkingConfig) (text : Str) : List SChunk :=
  let boundaries := findTextBoundaries text ++ [TextBoundary.mk text.length .paragraph 100]
  let st := boundaries.foldl (spackStep cfg text) (SPackState.mk [] [] [] 0 0)
  let chunks :=
    if 0 < (trim (st.seed ++ st.body)).length then
      st.chunks ++ [SChunk.mk st.seed st.body st.currentTokens]
    else st.chunks
  if chunks.length = 0 ∧ 0 < text.length then fallbackSeededGo cfg text (text.length + 1) 0
  else chunks


/-! ### Chunk and group records, grouping and persistence -/

/-- The `'article' | 'code' | 'mixed'` content kinds. -/
inductive ContentType where
  | article
  | code
  | mixed
deriving DecidableEq, Repr

/-- Embeds `ContentChunk` from `chunking.ts` (`id` is optional before persistence). -/
structure ContentChunk where
  id : Option Nat
  crawled_content_id : Nat
  chunk_index : Nat
  chunk_text : Str
  token_count : Nat
  chunk_type : ContentType
deriving DecidableEq, Repr

/-- The `'pending' | 'summarized' | 'failed'` group statuses. -/
inductive GroupStatus where
  | pending
  | summarized
  | failed
deriving DecidableEq, Repr

/-- Embeds `ChunkGroup` from `chunking.ts`, as constructed by `createChunkGroups`
(no `id` yet). -/
structure ChunkGroup where
  crawled_content_id : Nat
  chunk_ids : List Nat
  group_index : Nat
  combined_text : Str
  combined_tokens : Nat
  status : GroupStatus
deriving DecidableEq, Repr

/-- The blank-line separator `'\n\n'` of `combinedText`. -/
def blankSep : Str := [Char.ofNat 10, Char.ofNat 10]

/-- The group built from the window starting at chunk index `i`
(the body of the `for` loop of `createChunkGroups`; `c0id` is
`chunks[0].crawled_content_id`, evaluated only when the loop runs). -/
def mkChunkGroup (cfg : ChunkingConfig) (c0id : Nat) (chunks : List ContentChunk)
    (i : Nat) : ChunkGroup :=
  let groupChunks : List ContentChunk := (chunks.drop i).take cfg.maxChunksPerGroup
  { crawled_content_id := c0id
    chunk_ids := groupChunks.filterMap (fun c => c.id)
    group_index := i / cfg.chunksPerGroup
    combined_text := List.intercalate blankSep (groupChunks.map (fun c => c.chunk_text))
    combined_tokens := groupChunks.foldl (fun total c => total + c.token_count) 0
    status := .pending }

/-- The `for (let i = 0; …; i += chunksPerGroup)` loop of `createChunkGroups`,
fuel-bounded (the source loops forever when `chunksPerGroup = 0`). -/
def createChunkGroupsGo (cfg : ChunkingConfig) (c0id : Nat) (chunks : List ContentChunk) :
    Nat → Nat → List ChunkGroup
  | 0, _ => []
  | fuel + 1, i =>
    if i < chunks.length then
      mkChunkGroup cfg c0id chunks i ::
        createChunkGroupsGo cfg c0id chunks fuel (i + cfg.chunksPerGroup)
    else []

/-- Embeds `createChunkGroups` from the content-chunker worker. -/
def createChunkGroups (cfg : ChunkingConfig) (chunks : List ContentChunk) : List ChunkGroup :=
  match chunks with
  | [] => []
  | c0 :: _ => createChunkGroupsGo cfg c0.crawled_content_id chunks (chunks.length + 1) 0

/-- Embeds `saveChunks` from the content-chunker worker, with the database insert
modelled as an oracle from the inserted row to the returned `id` (`none`
models a failed insert, whose chunk the source logs and skips). -/
def saveChunks (insertOracle : Nat → Nat → Str → Nat → ContentType → Option Nat)
    (contentId : Nat) (chunks : List Str) (contentType : ContentType) : List ContentChunk :=
  chunks.enum.filterMap (fun p =>
    (insertOracle contentId p.1 p.2 (estimateTokenCount p.2) contentType).map (fun idv =>
      { id := some idv
        crawled_content_id := contentId
        chunk_index := p.1
        chunk_text := p.2
        token_count := estimateTokenCount p.2
        chunk_type := contentType }))

/-! ### Summary aggregation (chunk-group summarizer worker) -/

/-- Sentiment values of `SummarizedContent`. -/
inductive Sentiment where
  | positive
  | negative
  | neutral
deriving DecidableEq, Repr

/-- Embeds `SummarizedContent` from the chunk-group summarizer worker; the two date
fields are epoch timestamps. -/
structure SummarizedContent where
  url : Str
  title : Str
  original_text : Str
  summary : Str
  key_points : List Str
  code_snippets : List Str
  content_type : Str
  sentiment : Sentiment
  category : Str
  crawled_at : Nat
  summarized_at : Nat
  crawled_content_id : Option Nat
  chunk_group_id : Option Nat
  is_partial_summary : Bool
deriving DecidableEq, Repr

/-- Embeds `ContentWithGroups` from the chunk-group summarizer worker. -/
structure ContentWithGroups where
  id : Nat
  url : Str
  title : Str
  content_type : Str
  crawled_at : Nat
  groups : List ChunkGroup
deriving DecidableEq, Repr

/-- Embeds `storePartialSummary`: `lPush` prepends the serialized summary to the
per-content Redis list (the JSON codec is abstracted as `encode`; the queue
holds the serialized payloads head-first, exactly as Redis does). -/
def storePartialSummary {α : Type} (encode : α → Str) (queue : List Str) (s : α) :
    List Str :=
  encode s :: queue

/-- Embeds `getPartialSummaries`: `lRange(key, 0, -1)` reads the whole list
head-first, `.reverse()` restores FIFO order, and each entry is parsed back
(the JSON parse plus date revival is abstracted as `decode`). -/
def getPartialSummaries {α : Type} (decode : Str → α) (queue : List Str) : List α :=
  (queue.reverse).map decode

/-- Embeds `createFinalSummary`: with exactly one staged partial summary, re-flag it
as final and return it without any merge call; otherwise run the merge path,
which calls the external summarizer and is therefore modelled as an oracle
(the spec treats the language model as an opaque capability; a `none` result
models the `catch` branch returning `null`). -/
def createFinalSummary
    (mergeOracle : List SummarizedContent → ContentWithGroups → Option SummarizedContent)
    (partialSummaries : List SummarizedContent) (contentData : ContentWithGroups) :
    Option SummarizedContent :=
  if partialSummaries.length = 1 then
    (partialSummaries.head?).map (fun s => { s with is_partial_summary := false })
  else mergeOracle partialSummaries contentData

/-! ### Basic lemmas about the string primitives -/

theorem jsSlice_append (t : Str) {a b c : Nat} (hab : a ≤ b) (hbc : b ≤ c) :
    jsSlice t a b ++ jsSlice t b c = jsSlice t a c := by
  unfold jsSlice
  have hd : t.drop b = (t.drop a).drop (b - a) := by
    rw [List.drop_drop]
    congr 1
    omega
  rw [hd, ← List.take_add]
  congr 1
  omega

theorem jsSlice_zero_len (t : Str) : jsSlice t 0 t.length = t := by
  simp [jsSlice]

theorem jsSlice_sublist (t : Str) (a b : Nat) : (jsSlice t a b).Sublist t := by
  unfold jsSlice
  exact ((t.drop a).take_sublist _).trans (t.drop_sublist a)

theorem trim_eq_nil_iff {s : Str} : trim s = [] ↔ ∀ c ∈ s, isWs c := by
  unfold trim
  rw [List.reverse_eq_nil_iff, List.dropWhile_eq_nil_iff]
  constructor
  · intro h c hc
    rcases (List.mem_append.mp (by rw [List.takeWhile_append_dropWhile] at *; exact hc :
        c ∈ s.takeWhile isWs ++ s.dropWhile isWs)) with h1 | h1
    · exact List.mem_takeWhile_imp h1
    · exact h c (List.mem_reverse.mpr h1)
  · intro h c hc
    exact h c ((List.dropWhile_sublist _).mem (List.mem_reverse.mp hc))

theorem stripWs_append (a b : Str) : stripWs (a ++ b) = stripWs a ++ stripWs b :=
  List.filter_append _ _

theorem stripWs_eq_nil_iff {s : Str} : stripWs s = [] ↔ ∀ c ∈ s, isWs c := by
  unfold stripWs
  rw [List.filter_eq_nil_iff]
  simp

/-! ### C6 — `getOverlapText` -/

/-- The overlap-tail extractor exactly as the claim words it ("the whole chunk
when the chunk is **shorter than** `overlapTokens × 4` characters"; otherwise
the trailing slice of that length, trimmed to just past a late `". "` if one
occurs past the halfway point). -/
def overlapTailClaimed (chunk : Str) (overlapTokens : Nat) : Str :=
  let budget := overlapTokens * 4
  if chunk.length < budget then chunk
  else
    let tail := jsSlice chunk (chunk.length - budget) chunk.length
    match lastIndexOfDotSpace tail with
    | some i =>
      if i > budget / 2 then jsSlice chunk (chunk.length - budget + i + 2) chunk.length
      else tail
    | none => tail

/-- The claim amended at its boundary case: the whole chunk is reused whenever
the chunk's length is **at most** (not: strictly below) `overlapTokens × 4`. -/
def overlapTailAmended (chunk : Str) (overlapTokens : Nat) : Str :=
  let budget := overlapTokens * 4
  if chunk.length ≤ budget then chunk
  else
    let tail := jsSlice chunk (chunk.length - budget) chunk.length
    match lastIndexOfDotSpace tail with
    | some i =>
      if i > budget / 2 then jsSlice chunk (chunk.length - budget + i + 2) chunk.length
      else tail
    | none => tail

/-- C6, counterexample: on the 8-character chunk `"aaaaa. B"` with an overlap
budget of 2 tokens = 8 characters, the chunk is exactly as long as the budget;
the source returns the whole chunk while the claim as stated prescribes the
suffix `"B"` past the late sentence boundary. -/
theorem getOverlapText_claim_cex :
    getOverlapText (("aaaaa. B").toList) 2 = ("aaaaa. B").toList ∧
    overlapTailClaimed (("aaaaa. B").toList) 2 = ("B").toList ∧
    getOverlapText (("aaaaa. B").toList) 2 ≠ overlapTailClaimed (("aaaaa. B").toList) 2 := by
  decide

/-- C6, amended: `getOverlapText` behaves exactly as the claim describes once
"shorter than" is read as "no longer than": whole chunk when
`length ≤ overlapTokens × 4`; otherwise the trailing slice of that length,
cut to start just past the last `". "` when that occurrence lies past the
slice's halfway point, else the raw trailing slice. -/
theorem getOverlapText_spec (chunk : Str) (overlapTokens : Nat) :
    getOverlapText chunk overlapTokens = overlapTailAmended chunk overlapTokens := rfl

/-! ### C8 — `createFinalSummary` with a single staged partial summary -/

/-- C8: a staging buffer holding exactly one partial summary is promoted
directly: the result is that summary re-flagged as non-partial, for **every**
merge oracle — the external summarizer's merge mode is not consulted. -/
theorem createFinalSummary_single
    (mergeOracle : List SummarizedContent → ContentWithGroups → Option SummarizedContent)
    (s : SummarizedContent) (contentData : ContentWithGroups) :
    createFinalSummary mergeOracle [s] contentData =
      some { s with is_partial_summary := false } := rfl

/-! ### C9 — Redis staging-buffer round trip -/

theorem foldl_store_eq {α : Type} (encode : α → Str) :
    ∀ (l : List α) (q : List Str),
      l.foldl (storePartialSummary encode) q = (l.map encode).reverse ++ q := by
  intro l
  induction l with
  | nil => simp
  | cons s l ih =>
    intro q
    simp only [List.foldl_cons, List.map_cons, List.reverse_cons, storePartialSummary, ih]
    simp

/-- C9: storing a sequence of partial summaries with `storePartialSummary`
(Redis `lPush`) and draining with `getPartialSummaries` (`lRange 0 -1` then
`reverse`) returns exactly the stored summaries in insertion order, provided
the serialization codec round-trips. -/
theorem partialSummaries_roundtrip {α : Type} (encode : α → Str) (decode : Str → α)
    (h : ∀ s, decode (encode s) = s) (summaries : List α) :
    getPartialSummaries decode (summaries.foldl (storePartialSummary encode) []) =
      summaries := by
  rw [foldl_store_eq]
  unfold getPartialSummaries
  rw [List.append_nil, List.reverse_reverse, List.map_map]
  have hfe : decode ∘ encode = id := funext h
  rw [hfe, List.map_id]

/-- Witness for C9 at a concrete input: payload type `Str` with the identity
codec and two stored summaries. -/
theorem partialSummaries_roundtrip_witness :
    (∀ s : Str, (fun x : Str => x) ((fun x : Str => x) s) = s) ∧
    getPartialSummaries (fun x : Str => x)
        (([("ab").toList, ("cd").toList]).foldl (storePartialSummary (fun x : Str => x)) []) =
      [("ab").toList, ("cd").toList] :=
  ⟨fun _ => rfl,
   partialSummaries_roundtrip (fun x => x) (fun x => x) (fun _ => rfl) _⟩

/-! ### C4 — token estimate consistency -/

theorem estimateTokenCount_ceil (n : Nat) :
    (((n + 3) / 4 : Nat) : ℤ) = Int.ceil ((n : ℚ) / 4) := by
  have h1 : n ≤ 4 * ((n + 3) / 4) := by omega
  have h2 : 4 * ((n + 3) / 4) ≤ n + 3 := by omega
  symm
  rw [Int.ceil_eq_iff]
  constructor
  · rw [lt_div_iff₀ (by norm_num : (0 : ℚ) < 4)]
    have hz : ((((n + 3) / 4 : Nat) : ℤ) - 1) * 4 < (n : ℤ) := by omega
    exact_mod_cast hz
  · rw [div_le_iff₀ (by norm_num : (0 : ℚ) < 4)]
    have hz : (n : ℤ) ≤ (((n + 3) / 4 : Nat) : ℤ) * 4 := by omega
    exact_mod_cast hz

/-- C4: `estimateTokenCount s` is exactly `⌈|s| / 4⌉`; the persisted
`token_count` of every chunk saved by `saveChunks` is `estimateTokenCount` of
that chunk's text; and the packer's per-iteration token accounting uses the
same `estimateTokenCount` (the running count either grows by the estimate of
the new segment or is re-derived as the estimate of the accumulated chunk —
no other estimator exists). -/
theorem estimateTokenCount_consistent :
    (∀ s : Str, ((estimateTokenCount s : Nat) : ℤ) = Int.ceil ((s.length : ℚ) / 4)) ∧
    (∀ (insertOracle : Nat → Nat → Str → Nat → ContentType → Option Nat)
       (contentId : Nat) (chunks : List Str) (contentType : ContentType),
       ∀ c ∈ saveChunks insertOracle contentId chunks contentType,
         c.token_count = estimateTokenCount c.chunk_text) ∧
    (∀ (cfg : ChunkingConfig) (text : Str) (st : PackState) (b : TextBoundary),
       (packStep cfg text st b).currentTokens =
           st.currentTokens + estimateTokenCount (jsSlice text st.lastBoundary b.index) ∨
         (packStep cfg text st b).currentTokens =
           estimateTokenCount (packStep cfg text st b).currentChunk) := by
  refine ⟨fun s => estimateTokenCount_ceil s.length, ?_, ?_⟩
  · intro insertOracle contentId chunks contentType c hc
    unfold saveChunks at hc
    rw [List.mem_filterMap] at hc
    obtain ⟨p, _, hp⟩ := hc
    rcases ho : insertOracle contentId p.1 p.2 (estimateTokenCount p.2) contentType with
      _ | idv
    · rw [ho] at hp
      simp at hp
    · rw [ho] at hp
      simp only [Option.map_some'] at hp
      cases hp
      rfl
  · intro cfg text st b
    unfold packStep
    dsimp only
    split_ifs with h1 h2 h3
    · right
      rfl
    · right
      rfl
    · left
      rfl
    · left
      rfl

/-- A concrete insert oracle for the C4 witness. -/
def demoOracle : Nat → Nat → Str → Nat → ContentType → Option Nat :=
  fun _ i _ _ _ => some (i + 10)

/-- The chunk `saveChunks` produces for the demo input below. -/
def demoChunk : ContentChunk :=
  { id := some 10
    crawled_content_id := 1
    chunk_index := 0
    chunk_text := ("ab").toList
    token_count := 1
    chunk_type := .article }

/-- Witness for C4: the ceiling identity at a 5-character string, and the
persisted token count of a concretely saved chunk. -/
theorem estimateTokenCount_consistent_witness :
    ((estimateTokenCount (("abcde").toList) : Nat) : ℤ) =
        Int.ceil (((("abcde").toList).length : ℚ) / 4) ∧
    demoChunk ∈ saveChunks demoOracle 1 [("ab").toList] .article ∧
    demoChunk.token_count = estimateTokenCount demoChunk.chunk_text :=
  ⟨estimateTokenCount_consistent.1 _, by decide,
   estimateTokenCount_consistent.2.1 demoOracle 1 [("ab").toList] .article demoChunk
     (by decide)⟩

/-! ### C1 — the fallback path -/

/-- The configuration of the C1 counterexample: `maxCharsPerChunk = 8`,
`overlapChars = 2`. -/
def cexCfg1 : ChunkingConfig :=
  { maxTokensPerChunk := 2
    minTokensPerChunk := 1
    overlapTokens := 0
    chunksPerGroup := 2
    maxChunksPerGroup := 3
    maxCharsPerChunk := 8
    minCharsPerChunk := 1
    overlapChars := 2 }

/-- C1, counterexample: `"aaaaaaaaaa"` (10 characters) is non-empty, has no
boundaary of any kind and exceeds `maxCharsPerChunk = 8`, yet `chunkText`
returns the whole text as a single 10-character chunk — it does **not** take
the fallback path, whose fixed-width slices would be `["aaaaaaaa", "aaaa"]`. -/
theorem chunkText_fallback_not_taken_cex :
    ("aaaaaaaaaa").toList ≠ [] ∧
    findTextBoundaries (("aaaaaaaaaa").toList) = [] ∧
    cexCfg1.maxCharsPerChunk < (("aaaaaaaaaa").toList).length ∧
    chunkText cexCfg1 (("aaaaaaaaaa").toList) = [("aaaaaaaaaa").toList] ∧
    fallbackChunking cexCfg1 (("aaaaaaaaaa").toList) =
      [("aaaaaaaa").toList, ("aaaa").toList] ∧
    chunkText cexCfg1 (("aaaaaaaaaa").toList) ≠
      fallbackChunking cexCfg1 (("aaaaaaaaaa").toList) := by
  decide

/-- C1, amended: when the text has no boundaries at all, the packer appends
the single whole-text segment to the still-empty current chunk (the
`currentChunk.length > 0` conjunct blocks finalization), so any text whose
trim is non-empty is returned as **one chunk, the whole trimmed text** —
regardless of `maxCharsPerChunk` — and the fallback path is not taken.  (The
fallback can only trigger on all-whitespace non-empty input, where it also
returns nothing.) -/
theorem chunkText_boundary_free_single_chunk (cfg : ChunkingConfig) (text : Str)
    (hb : findTextBoundaries text = []) (ht : trim text ≠ []) :
    chunkText cfg text = [trim text] := by
  have hlen : 0 < (trim text).length := List.length_pos.mpr ht
  unfold chunkText
  rw [hb]
  simp only [List.nil_append, List.foldl_cons, List.foldl_nil]
  unfold packStep
  simp only [List.length_nil, lt_irrefl, and_false, if_false]
  simp [jsSlice, hlen]

/-- Witness for C1's amended theorem at a concrete boundary-free text. -/
theorem chunkText_boundary_free_single_chunk_witness :
    findTextBoundaries (("hello").toList) = [] ∧
    trim (("hello").toList) ≠ [] ∧
    chunkText DEFAULT_CHUNKING_CONFIG (("hello").toList) = [trim (("hello").toList)] :=
  ⟨by decide, by decide,
   chunkText_boundary_free_single_chunk DEFAULT_CHUNKING_CONFIG (("hello").toList)
     (by decide) (by decide)⟩

/-! ### C3 and C10 — `createChunkGroups` -/

theorem createChunkGroupsGo_eq (cfg : ChunkingConfig) (c0id : Nat)
    (chunks : List ContentChunk) (hcpg : 1 ≤ cfg.chunksPerGroup) :
    ∀ fuel i, chunks.length ≤ i + fuel →
      createChunkGroupsGo cfg c0id chunks fuel i =
        (List.range
            (if i < chunks.length then
              (chunks.length - i - 1) / cfg.chunksPerGroup + 1
            else 0)).map
          (fun k => mkChunkGroup cfg c0id chunks (i + k * cfg.chunksPerGroup)) := by
  intro fuel
  induction fuel with
  | zero =>
    intro i hfuel
    have : ¬ i < chunks.length := by omega
    simp [createChunkGroupsGo, this]
  | succ fuel ih =>
    intro i hfuel
    by_cases hi : i < chunks.length
    · have hcount :
          (chunks.length - i - 1) / cfg.chunksPerGroup =
            if i + cfg.chunksPerGroup < chunks.length then
              (chunks.length - (i + cfg.chunksPerGroup) - 1) / cfg.chunksPerGroup + 1
            else 0 := by
        by_cases hstep : i + cfg.chunksPerGroup < chunks.length
        · rw [if_pos hstep]
          have hrepr : chunks.length - i - 1 =
              (chunks.length - (i + cfg.chunksPerGroup) - 1) + cfg.chunksPerGroup := by
            omega
          rw [hrepr, Nat.add_div_right _ (by omega)]
        · rw [if_neg hstep]
          exact Nat.div_eq_of_lt (by omega)
      rw [createChunkGroupsGo, if_pos hi, ih (i + cfg.chunksPerGroup) (by omega),
        if_pos hi, hcount, List.range_succ_eq_map, List.map_cons, List.map_map]
      congr 1
      · simp [Nat.add_comm]
      · apply List.map_congr_left
        intro k _
        simp only [Function.comp_apply, Nat.succ_eq_add_one]
        congr 1
        ring
    · rw [createChunkGroupsGo, if_neg hi, if_neg hi]
      simp

theorem foldl_token_sum (l : List ContentChunk) :
    l.foldl (fun total c => total + c.token_count) 0 =
      (l.map (fun c => c.token_count)).sum := by
  rw [List.sum_eq_foldl, List.foldl_map]

/-- C3: for a non-empty chunk list and `chunksPerGroup ≥ 1`, the groups are
exactly one per window start `i = 0, cpg, 2·cpg, … < N`, in order; each holds
the members `chunks[i .. i + maxChunksPerGroup)` with their texts joined by a
blank line, their token counts summed, `group_index = i / cpg`, the member
ids with undefined ids dropped, and status `pending`. -/
theorem createChunkGroups_windows (cfg : ChunkingConfig) (c0 : ContentChunk)
    (rest : List ContentChunk) (hcpg : 1 ≤ cfg.chunksPerGroup) :
    createChunkGroups cfg (c0 :: rest) =
      (List.range (rest.length / cfg.chunksPerGroup + 1)).map (fun k =>
        let i := k * cfg.chunksPerGroup
        let members := ((c0 :: rest).drop i).take cfg.maxChunksPerGroup
        ({ crawled_content_id := c0.crawled_content_id
           chunk_ids := members.filterMap (fun c => c.id)
           group_index := i / cfg.chunksPerGroup
           combined_text := List.intercalate blankSep (members.map (fun c => c.chunk_text))
           combined_tokens := (members.map (fun c => c.token_count)).sum
           status := .pending } : ChunkGroup)) := by
  show createChunkGroupsGo cfg c0.crawled_content_id (c0 :: rest) ((c0 :: rest).length + 1) 0 = _
  rw [createChunkGroupsGo_eq cfg c0.crawled_content_id (c0 :: rest) hcpg _ 0 (by omega),
    if_pos (by simp)]
  have hc : (c0 :: rest).length - 0 - 1 = rest.length := by simp
  rw [hc]
  apply List.map_congr_left
  intro k _
  unfold mkChunkGroup
  dsimp only
  rw [Nat.zero_add, foldl_token_sum]

/-- Shared demo data for the grouping witnesses. -/
def mkDemoChunk (n : Nat) : ContentChunk :=
  { id := some (n + 20)
    crawled_content_id := 7
    chunk_index := n
    chunk_text := [Char.ofNat (97 + n)]
    token_count := n + 1
    chunk_type := .article }

/-- Head chunk of the demo list. -/
def c0W : ContentChunk := mkDemoChunk 0

/-- Tail chunks of the demo list. -/
def restW : List ContentChunk := [mkDemoChunk 1, mkDemoChunk 2, mkDemoChunk 3, mkDemoChunk 4]

/-- Witness for C3 on a 5-chunk list with the default configuration
(`chunksPerGroup = 2`, `maxChunksPerGroup = 3`). -/
theorem createChunkGroups_windows_witness :
    1 ≤ DEFAULT_CHUNKING_CONFIG.chunksPerGroup ∧
    createChunkGroups DEFAULT_CHUNKING_CONFIG (c0W :: restW) =
      (List.range (restW.length / DEFAULT_CHUNKING_CONFIG.chunksPerGroup + 1)).map (fun k =>
        let i := k * DEFAULT_CHUNKING_CONFIG.chunksPerGroup
        let members := ((c0W :: restW).drop i).take DEFAULT_CHUNKING_CONFIG.maxChunksPerGroup
        ({ crawled_content_id := c0W.crawled_content_id
           chunk_ids := members.filterMap (fun c => c.id)
           group_index := i / DEFAULT_CHUNKING_CONFIG.chunksPerGroup
           combined_text := List.intercalate blankSep (members.map (fun c => c.chunk_text))
           combined_tokens := (members.map (fun c => c.token_count)).sum
           status := .pending } : ChunkGroup)) :=
  ⟨by decide, createChunkGroups_windows DEFAULT_CHUNKING_CONFIG c0W restW (by decide)⟩

/-- C10: with `1 ≤ chunksPerGroup ≤ maxChunksPerGroup`, every chunk of a
non-empty list belongs to the member window of at least one emitted group
(the group's window being `chunks[g.group_index · cpg .. + maxChunksPerGroup)`). -/
theorem createChunkGroups_covers (cfg : ChunkingConfig) (c0 : ContentChunk)
    (rest : List ContentChunk) (hcpg : 1 ≤ cfg.chunksPerGroup)
    (hmax : cfg.chunksPerGroup ≤ cfg.maxChunksPerGroup) :
    ∀ j (hj : j < (c0 :: rest).length),
      ∃ g ∈ createChunkGroups cfg (c0 :: rest),
        (c0 :: rest).get ⟨j, hj⟩ ∈
          ((c0 :: rest).drop (g.group_index * cfg.chunksPerGroup)).take
            cfg.maxChunksPerGroup := by
  intro j hj
  have hgo :
      createChunkGroups cfg (c0 :: rest) =
        (List.range (((c0 :: rest).length - 1) / cfg.chunksPerGroup + 1)).map
          (fun k =>
            mkChunkGroup cfg c0.crawled_content_id (c0 :: rest) (k * cfg.chunksPerGroup)) := by
    show createChunkGroupsGo cfg c0.crawled_content_id (c0 :: rest)
        ((c0 :: rest).length + 1) 0 = _
    rw [createChunkGroupsGo_eq cfg c0.crawled_content_id (c0 :: rest) hcpg _ 0 (by omega),
      if_pos (by simp)]
    simp only [Nat.sub_zero, Nat.zero_add]
  have hdm : j / cfg.chunksPerGroup * cfg.chunksPerGroup + j % cfg.chunksPerGroup = j := by
    rw [Nat.mul_comm]
    exact Nat.div_add_mod j cfg.chunksPerGroup
  have hmlt : j % cfg.chunksPerGroup < cfg.chunksPerGroup :=
    Nat.mod_lt j (by omega)
  refine ⟨mkChunkGroup cfg c0.crawled_content_id (c0 :: rest)
    (j / cfg.chunksPerGroup * cfg.chunksPerGroup), ?_, ?_⟩
  · rw [hgo]
    refine List.mem_map.mpr ⟨j / cfg.chunksPerGroup, List.mem_range.mpr ?_, rfl⟩
    have h1 : j ≤ (c0 :: rest).length - 1 := by omega
    have h2 := @Nat.div_le_div_right _ _ cfg.chunksPerGroup h1
    omega
  · have hgidx :
        (mkChunkGroup cfg c0.crawled_content_id (c0 :: rest)
            (j / cfg.chunksPerGroup * cfg.chunksPerGroup)).group_index =
          j / cfg.chunksPerGroup := by
      unfold mkChunkGroup
      dsimp only
      exact Nat.mul_div_cancel _ (by omega)
    rw [hgidx]
    rw [List.mem_iff_getElem]
    refine ⟨j - j / cfg.chunksPerGroup * cfg.chunksPerGroup, ?_, ?_⟩
    · rw [List.length_take, List.length_drop, lt_min_iff]
      constructor
      · omega
      · omega
    · rw [List.getElem_take, List.getElem_drop]
      congr 1
      omega

/-- Witness for C10: chunk index 4 of the 5-chunk demo list is covered. -/
theorem createChunkGroups_covers_witness :
    1 ≤ DEFAULT_CHUNKING_CONFIG.chunksPerGroup ∧
    DEFAULT_CHUNKING_CONFIG.chunksPerGroup ≤ DEFAULT_CHUNKING_CONFIG.maxChunksPerGroup ∧
    ∃ g ∈ createChunkGroups DEFAULT_CHUNKING_CONFIG (c0W :: restW),
      (c0W :: restW).get ⟨4, by decide⟩ ∈
        ((c0W :: restW).drop (g.group_index * DEFAULT_CHUNKING_CONFIG.chunksPerGroup)).take
          DEFAULT_CHUNKING_CONFIG.maxChunksPerGroup :=
  ⟨by decide, by decide,
   createChunkGroups_covers DEFAULT_CHUNKING_CONFIG c0W restW (by decide) (by decide) 4
     (by decide)⟩

/-! ### Structural facts about the boundary matchers -/

theorem wsRunLen_le (cs : Str) (j : Nat) (hj : j ≤ cs.length) :
    j + wsRunLen cs j ≤ cs.length := by
  unfold wsRunLen
  have h := (@List.takeWhile_prefix _ (cs.drop j) isWs).length_le
  rw [List.length_drop] at h
  omega

theorem wsRun_isWs (cs : Str) (j k : Nat) (hk : k < wsRunLen cs j) :
    isWs (charAt cs (j + k)) := by
  unfold wsRunLen at hk
  have hpre : (cs.drop j).takeWhile isWs <+: cs.drop j := List.takeWhile_prefix _
  have hlt2 : k < (cs.drop j).length := lt_of_lt_of_le hk hpre.length_le
  have hjk : j + k < cs.length := by
    rw [List.length_drop] at hlt2
    omega
  have hget := hpre.getElem hk
  have hmem := List.getElem_mem hk
  have hw := List.mem_takeWhile_imp hmem
  rw [hget, List.getElem_drop] at hw
  unfold charAt
  rw [List.getD_eq_getElem cs _ hjk]
  exact hw

theorem charAt_eq_imp_lt {cs : Str} {i : Nat} {c : Char} (h : charAt cs i = c)
    (hc : c ≠ '\x00') : i < cs.length := by
  by_contra hge
  push_neg at hge
  unfold charAt at h
  rw [List.getD_eq_default cs _ hge] at h
  exact hc h.symm

theorem lastNlIn_some {cs : Str} {j r m : Nat} (h : lastNlIn cs j r = some m) :
    j ≤ m ∧ m < j + r ∧ charAt cs m = '\n' := by
  unfold lastNlIn at h
  cases hg : ((List.range r).filter (fun k => decide (charAt cs (j + k) = '\n'))).getLast? with
  | none => rw [hg] at h; simp at h
  | some k =>
    rw [hg] at h
    simp only [Option.map_some', Option.some.injEq] at h
    obtain ⟨hne, heq⟩ := List.mem_getLast?_eq_getLast (Option.mem_def.mpr hg)
    have hmem : k ∈ (List.range r).filter (fun k => decide (charAt cs (j + k) = '\n')) := by
      rw [heq]
      exact List.getLast_mem hne
    rw [List.mem_filter, List.mem_range] at hmem
    obtain ⟨hkr, hknl⟩ := hmem
    have hnl := of_decide_eq_true hknl
    subst h
    exact ⟨by omega, by omega, hnl⟩

theorem paraGo_props (cs : Str) :
    ∀ fuel pos, ∀ m ∈ paraGo cs fuel pos,
      m.1 + 2 ≤ m.2 ∧ m.2 ≤ cs.length ∧ charAt cs m.1 = '\n' ∧
        charAt cs (m.2 - 1) = '\n' ∧ ∀ k, m.1 ≤ k → k < m.2 → isWs (charAt cs k) := by
  intro fuel
  induction fuel with
  | zero =>
    intro pos m hm
    simp [paraGo] at hm
  | succ fuel ih =>
    intro pos m hm
    rw [paraGo] at hm
    by_cases hpos : pos < cs.length
    · rw [if_pos hpos] at hm
      by_cases hnl : charAt cs pos = '\n'
      · rw [if_pos hnl] at hm
        cases hlast : lastNlIn cs (pos + 1) (wsRunLen cs (pos + 1)) with
        | some mm =>
          rw [hlast] at hm
          rcases List.mem_cons.mp hm with hm1 | hm2
          · obtain ⟨h1, h2, h3⟩ := lastNlIn_some hlast
            have hmmlt : mm < cs.length := charAt_eq_imp_lt h3 (by decide)
            subst hm1
            refine ⟨by omega, by omega, hnl, by simpa using h3, ?_⟩
            intro k hk1 hk2
            rcases Nat.eq_or_lt_of_le hk1 with heq | hlt
            · rw [← heq, hnl]
              decide
            · have hkr : k - (pos + 1) < wsRunLen cs (pos + 1) := by omega
              have hw := wsRun_isWs cs (pos + 1) (k - (pos + 1)) hkr
              have : pos + 1 + (k - (pos + 1)) = k := by omega
              rwa [this] at hw
          · exact ih (mm + 1) m hm2
        | none =>
          rw [hlast] at hm
          exact ih (pos + 1) m hm
      · rw [if_neg hnl] at hm
        exact ih (pos + 1) m hm
    · rw [if_neg hpos] at hm
      simp at hm

theorem subAt_bound {cs pat : Str} {i : Nat} (h : subAt cs pat i = true) (hne : pat ≠ []) :
    i + pat.length ≤ cs.length := by
  unfold subAt at h
  have heq := of_decide_eq_true h
  have hlen : ((cs.drop i).take pat.length).length = pat.length := by rw [heq]
  rw [List.length_take, List.length_drop] at hlen
  have hplen : 0 < pat.length := List.length_pos.mpr hne
  omega

theorem firstNlFrom_some {cs : Str} {i c : Nat} (h : firstNlFrom cs i = some c) :
    i ≤ c ∧ c < cs.length ∧ charAt cs c = '\n' := by
  unfold firstNlFrom at h
  cases hg : ((List.range (cs.length - i)).filter
      (fun k => decide (charAt cs (i + k) = '\n'))).head? with
  | none => rw [hg] at h; simp at h
  | some k =>
    rw [hg] at h
    simp only [Option.map_some', Option.some.injEq] at h
    have hmem := List.mem_of_mem_head? (Option.mem_def.mpr hg)
    rw [List.mem_filter, List.mem_range] at hmem
    obtain ⟨hkr, hknl⟩ := hmem
    have hnl := of_decide_eq_true hknl
    subst h
    exact ⟨by omega, by omega, hnl⟩

theorem sectionTry_some {cs : Str} {a e : Nat} :
    ∀ {cnt}, sectionTry cs a cnt = some e → e ≤ cs.length := by
  intro cnt
  induction cnt with
  | zero =>
    intro h
    simp [sectionTry] at h
  | succ k ih =>
    intro h
    rw [sectionTry] at h
    split at h
    · cases hf : firstNlFrom cs (a + (k + 1)) with
      | some c =>
        rw [hf] at h
        cases h
        have := firstNlFrom_some hf
        omega
      | none =>
        rw [hf] at h
        exact ih h
    · exact ih h

theorem sectionMatchAt_some {cs : Str} {pos e : Nat} (h : sectionMatchAt cs pos = some e) :
    e ≤ cs.length := by
  unfold sectionMatchAt at h
  split at h
  · dsimp only at h
    split at h
    · exact absurd h (by simp)
    · exact sectionTry_some h
  · exact absurd h (by simp)

theorem sectionGo_bound (cs : Str) :
    ∀ fuel pos, ∀ m ∈ sectionGo cs fuel pos, m.2 ≤ cs.length := by
  intro fuel
  induction fuel with
  | zero =>
    intro pos m hm
    simp [sectionGo] at hm
  | succ fuel ih =>
    intro pos m hm
    rw [sectionGo] at hm
    by_cases hpos : pos < cs.length
    · rw [if_pos hpos] at hm
      cases hma : sectionMatchAt cs pos with
      | some e =>
        rw [hma] at hm
        rcases List.mem_cons.mp hm with hm1 | hm2
        · subst hm1
          exact sectionMatchAt_some hma
        · exact ih e m hm2
      | none =>
        rw [hma] at hm
        exact ih (pos + 1) m hm
    · rw [if_neg hpos] at hm
      simp at hm

theorem findFrom_some {cs pat : Str} :
    ∀ {fuel i j}, findFrom cs pat fuel i = some j → subAt cs pat j = true := by
  intro fuel
  induction fuel with
  | zero =>
    intro i j h
    simp [findFrom] at h
  | succ fuel ih =>
    intro i j h
    rw [findFrom] at h
    split at h
    · cases h
      assumption
    · split at h
      · exact ih h
      · exact absurd h (by simp)

theorem codeMatchAt_some {cs : Str} {pos e : Nat} (h : codeMatchAt cs pos = some e) :
    pos ≤ cs.length ∧ e ≤ cs.length := by
  unfold codeMatchAt at h
  split at h
  · have hb := subAt_bound (by assumption) (by decide)
    cases hf : findFrom cs fence (cs.length + 1) (pos + 3) with
    | some j =>
      rw [hf] at h
      cases h
      have := subAt_bound (findFrom_some hf) (by decide)
      have hfl : fence.length = 3 := by decide
      rw [hfl] at this
      constructor
      · omega
      · omega
    | none =>
      rw [hf] at h
      exact absurd h (by simp)
  · split at h
    · have hb := subAt_bound (by assumption) (by decide)
      cases hf : findFrom cs preClose (cs.length + 1) (pos + 5) with
      | some j =>
        rw [hf] at h
        cases h
        have := subAt_bound (findFrom_some hf) (by decide)
        have hfl : preClose.length = 6 := by decide
        rw [hfl] at this
        constructor
        · omega
        · omega
      | none =>
        rw [hf] at h
        exact absurd h (by simp)
    · exact absurd h (by simp)

theorem codeGo_bound (cs : Str) :
    ∀ fuel pos, ∀ m ∈ codeGo cs fuel pos, m.1 ≤ cs.length ∧ m.2 ≤ cs.length := by
  intro fuel
  induction fuel with
  | zero =>
    intro pos m hm
    simp [codeGo] at hm
  | succ fuel ih =>
    intro pos m hm
    rw [codeGo] at hm
    by_cases hpos : pos < cs.length
    · rw [if_pos hpos] at hm
      cases hma : codeMatchAt cs pos with
      | some e =>
        rw [hma] at hm
        rcases List.mem_cons.mp hm with hm1 | hm2
        · subst hm1
          exact codeMatchAt_some hma
        · exact ih e m hm2
      | none =>
        rw [hma] at hm
        exact ih (pos + 1) m hm
    · rw [if_neg hpos] at hm
      simp at hm

theorem sentGo_bound (cs : Str) :
    ∀ fuel pos, ∀ m ∈ sentGo cs fuel pos, m.1 < cs.length := by
  intro fuel
  induction fuel with
  | zero =>
    intro pos m hm
    simp [sentGo] at hm
  | succ fuel ih =>
    intro pos m hm
    rw [sentGo] at hm
    by_cases hpos : pos < cs.length
    · rw [if_pos hpos] at hm
      split at hm
      · dsimp only at hm
        split at hm
        · rcases List.mem_cons.mp hm with hm1 | hm2
          · subst hm1
            exact hpos
          · exact ih _ m hm2
        · exact ih (pos + 1) m hm
      · exact ih (pos + 1) m hm
    · rw [if_neg hpos] at hm
      simp at hm

theorem findTextBoundaries_le (text : Str) :
    ∀ b ∈ findTextBoundaries text, b.index ≤ text.length := by
  intro b hb
  unfold findTextBoundaries at hb
  rw [(List.perm_insertionSort boundaryLe _).mem_iff] at hb
  rw [List.mem_append] at hb
  rcases hb with hb | hb
  · rw [List.mem_append] at hb
    rcases hb with hb | hb
    · rw [List.mem_append] at hb
      rcases hb with hb | hb
      · rw [List.mem_map] at hb
        obtain ⟨m, hm, rfl⟩ := hb
        exact (paraGo_props text _ 0 m hm).2.1
      · rw [List.mem_map] at hb
        obtain ⟨m, hm, rfl⟩ := hb
        exact sectionGo_bound text _ 0 m hm
    · rw [List.mem_flatMap] at hb
      obtain ⟨m, hm, hmem⟩ := hb
      have hbound := codeGo_bound text _ 0 m hm
      rcases List.mem_cons.mp hmem with h1 | h2
      · subst h1
        exact hbound.1
      · rcases List.mem_cons.mp h2 with h3 | h4
        · subst h3
          exact hbound.2
        · simp at h4
  · rw [List.mem_map] at hb
    obtain ⟨m, hm, rfl⟩ := hb
    have := sentGo_bound text _ 0 m hm
    show m.1 + 1 ≤ text.length
    omega

theorem findTextBoundaries_sorted (text : Str) :
    List.Sorted boundaryLe (findTextBoundaries text) :=
  List.sorted_insertionSort boundaryLe _

/-! ### C7 — `findTextBoundaries` -/

/-- C7: `findTextBoundaries` returns all candidates sorted ascending by
offset with duplicates retained (the output is a permutation of the four
matchers' candidates — paragraph, section, code-block start/end, sentence);
its paragraph entries are exactly the ends of the `/\n\s*\n/g` matches, with
priority 100; and every such match is a whitespace run of length ≥ 2 that
starts and ends with a newline (two or more newline-delimited blank
characters), lying inside the text. -/
theorem findTextBoundaries_spec (text : Str) :
    List.Sorted (fun a b : TextBoundary => a.index ≤ b.index) (findTextBoundaries text) ∧
    (findTextBoundaries text).Perm
      ((paragraphMatches text).map (fun m => TextBoundary.mk m.2 .paragraph 100) ++
       (sectionMatches text).map (fun m => TextBoundary.mk m.2 .sectionHeader 90) ++
       (codeBlockMatches text).flatMap
         (fun m => [TextBoundary.mk m.1 .code_block 85, TextBoundary.mk m.2 .code_block 85]) ++
       (sentenceMatches text).map (fun m => TextBoundary.mk (m.1 + 1) .sentence 50)) ∧
    ((findTextBoundaries text).filter
        (fun b => decide (b.type = BoundaryType.paragraph))).Perm
      ((paragraphMatches text).map (fun m => TextBoundary.mk m.2 .paragraph 100)) ∧
    ∀ m ∈ paragraphMatches text,
      m.1 + 2 ≤ m.2 ∧ m.2 ≤ text.length ∧ charAt text m.1 = '\n' ∧
        charAt text (m.2 - 1) = '\n' ∧ ∀ k, m.1 ≤ k → k < m.2 → isWs (charAt text k) := by
  have hperm : (findTextBoundaries text).Perm
      ((paragraphMatches text).map (fun m => TextBoundary.mk m.2 .paragraph 100) ++
       (sectionMatches text).map (fun m => TextBoundary.mk m.2 .sectionHeader 90) ++
       (codeBlockMatches text).flatMap
         (fun m => [TextBoundary.mk m.1 .code_block 85, TextBoundary.mk m.2 .code_block 85]) ++
       (sentenceMatches text).map (fun m => TextBoundary.mk (m.1 + 1) .sentence 50)) :=
    List.perm_insertionSort boundaryLe _
  refine ⟨findTextBoundaries_sorted text, hperm, ?_, fun m hm => paraGo_props text _ 0 m hm⟩
  have hfp := hperm.filter (fun b => decide (b.type = BoundaryType.paragraph))
  rw [List.filter_append, List.filter_append, List.filter_append] at hfp
  have h0 : List.filter (fun b => decide (b.type = BoundaryType.paragraph))
      ((paragraphMatches text).map (fun m => TextBoundary.mk m.2 .paragraph 100)) =
      (paragraphMatches text).map (fun m => TextBoundary.mk m.2 .paragraph 100) := by
    rw [List.filter_eq_self]
    intro a ha
    rw [List.mem_map] at ha
    obtain ⟨m, _, rfl⟩ := ha
    simp
  have h1 : List.filter (fun b => decide (b.type = BoundaryType.paragraph))
      ((sectionMatches text).map (fun m => TextBoundary.mk m.2 .sectionHeader 90)) = [] := by
    rw [List.filter_eq_nil_iff]
    intro a ha
    rw [List.mem_map] at ha
    obtain ⟨m, _, rfl⟩ := ha
    simp
  have h2 : List.filter (fun b => decide (b.type = BoundaryType.paragraph))
      ((codeBlockMatches text).flatMap
        (fun m => [TextBoundary.mk m.1 .code_block 85, TextBoundary.mk m.2 .code_block 85])) =
      [] := by
    rw [List.filter_eq_nil_iff]
    intro a ha
    rw [List.mem_flatMap] at ha
    obtain ⟨m, _, hmem⟩ := ha
    rcases List.mem_cons.mp hmem with h | h
    · subst h
      simp
    · rcases List.mem_cons.mp h with h' | h'
      · subst h'
        simp
      · simp at h'
  have h3 : List.filter (fun b => decide (b.type = BoundaryType.paragraph))
      ((sentenceMatches text).map (fun m => TextBoundary.mk (m.1 + 1) .sentence 50)) = [] := by
    rw [List.filter_eq_nil_iff]
    intro a ha
    rw [List.mem_map] at ha
    obtain ⟨m, _, rfl⟩ := ha
    simp
  rw [h0, h1, h2, h3] at hfp
  simpa using hfp

/-- Witness for C7 at a concrete text with one paragraph match. -/
theorem findTextBoundaries_spec_witness :
    (4, 6) ∈ paragraphMatches (("One.\n\nTwo").toList) ∧
    ((4, 6).1 + 2 ≤ (4, 6).2 ∧ (4, 6).2 ≤ (("One.\n\nTwo").toList).length ∧
      charAt (("One.\n\nTwo").toList) (4, 6).1 = '\n' ∧
      charAt (("One.\n\nTwo").toList) ((4, 6).2 - 1) = '\n' ∧
      ∀ k, (4, 6).1 ≤ k → k < (4, 6).2 → isWs (charAt (("One.\n\nTwo").toList) k)) :=
  ⟨by decide, (findTextBoundaries_spec (("One.\n\nTwo").toList)).2.2.2 (4, 6) (by decide)⟩

/-! ### Correspondence between `chunkText` and its ghost instrumentation -/

/-- The simulation relation: the ghost state carries the same data, with
`currentChunk` split as `seed ++ body`. -/
def packRel (st : PackState) (sst : SPackState) : Prop :=
  st.chunks = sst.chunks.map (fun c => trim (c.seed ++ c.body)) ∧
  st.currentChunk = sst.seed ++ sst.body ∧
  st.currentTokens = sst.currentTokens ∧
  st.lastBoundary = sst.lastBoundary

theorem packStep_rel (cfg : ChunkingConfig) (text : Str) {st : PackState}
    {sst : SPackState} (h : packRel st sst) (b : TextBoundary) :
    packRel (packStep cfg text st b) (spackStep cfg text sst b) := by
  obtain ⟨h1, h2, h3, h4⟩ := h
  unfold packStep spackStep
  dsimp only
  rw [h1, h2, h3, h4]
  split_ifs <;>
    exact ⟨by simp, by simp [List.append_assoc], rfl, rfl⟩

theorem packFold_rel (cfg : ChunkingConfig) (text : Str) (bs : List TextBoundary) :
    ∀ {st : PackState} {sst : SPackState}, packRel st sst →
      packRel (bs.foldl (packStep cfg text) st) (bs.foldl (spackStep cfg text) sst) := by
  induction bs with
  | nil => intro st sst h; exact h
  | cons b bs ih =>
    intro st sst h
    exact ih (packStep_rel cfg text h b)

theorem fallbackGo_eq_seeded (cfg : ChunkingConfig) (text : Str)
    (hov : cfg.overlapChars ≤ cfg.maxCharsPerChunk) :
    ∀ fuel i, fallbackGo cfg text fuel i =
      (fallbackSeededGo cfg text fuel i).map (fun c => trim (c.seed ++ c.body)) := by
  intro fuel
  induction fuel with
  | zero => intro i; rfl
  | succ fuel ih =>
    intro i
    rw [fallbackGo, fallbackSeededGo]
    dsimp only
    by_cases hi : i < text.length
    · rw [if_pos hi, if_pos hi]
      have hsb :
          (if i = 0 then ([] : Str) else jsSlice text i (i + cfg.overlapChars)) ++
            (if i = 0 then jsSlice text i (i + cfg.maxCharsPerChunk)
             else jsSlice text (i + cfg.overlapChars) (i + cfg.maxCharsPerChunk)) =
          jsSlice text i (i + cfg.maxCharsPerChunk) := by
        by_cases h0 : i = 0
        · rw [if_pos h0, if_pos h0, List.nil_append]
        · rw [if_neg h0, if_neg h0]
          exact jsSlice_append text (by omega) (by omega)
      by_cases hkeep : 0 < (trim (jsSlice text i (i + cfg.maxCharsPerChunk))).length
      · rw [if_pos hkeep, if_pos hkeep, List.map_cons, ih, hsb]
      · rw [if_neg hkeep, if_neg hkeep, ih]
    · rw [if_neg hi, if_neg hi]
      rfl

theorem chunkText_eq_seeded (cfg : ChunkingConfig) (text : Str)
    (hov : cfg.overlapChars ≤ cfg.maxCharsPerChunk) :
    chunkText cfg text = (chunkTextSeeded cfg text).map (fun c => trim (c.seed ++ c.body)) := by
  unfold chunkText chunkTextSeeded
  dsimp only
  obtain ⟨h1, h2, _, _⟩ :=
    @packFold_rel cfg text
      (findTextBoundaries text ++ [TextBoundary.mk text.length .paragraph 100])
      (PackState.mk [] [] 0 0) (SPackState.mk [] [] [] 0 0)
      ⟨rfl, rfl, rfl, rfl⟩
  generalize hS : List.foldl (spackStep cfg text) (SPackState.mk [] [] [] 0 0)
      (findTextBoundaries text ++ [TextBoundary.mk text.length .paragraph 100]) = S at h1 h2 ⊢
  rw [h1, h2]
  rw [apply_ite (List.map (fun c : SChunk => trim (c.seed ++ c.body)))]
  by_cases hkeep : 0 < (trim (S.seed ++ S.body)).length
  · rw [if_pos hkeep, if_pos hkeep]
    have hmap : (S.chunks ++ [SChunk.mk S.seed S.body S.currentTokens]).map
          (fun c => trim (c.seed ++ c.body)) =
        S.chunks.map (fun c => trim (c.seed ++ c.body)) ++ [trim (S.seed ++ S.body)] := by
      rw [List.map_append]
      rfl
    refine if_congr (by simp) ?_ hmap.symm
    show fallbackChunking cfg text = _
    unfold fallbackChunking
    exact fallbackGo_eq_seeded cfg text hov _ 0
  · rw [if_neg hkeep, if_neg hkeep]
    refine if_congr (by simp) ?_ rfl
    show fallbackChunking cfg text = _
    unfold fallbackChunking
    exact fallbackGo_eq_seeded cfg text hov _ 0

/-! ### Coverage invariant of the packer -/

theorem spackStep_lastBoundary (cfg : ChunkingConfig) (text : Str) (sst : SPackState)
    (b : TextBoundary) : (spackStep cfg text sst b).lastBoundary = b.index := by
  unfold spackStep
  dsimp only
  split_ifs <;> rfl

/-- The packer invariant: the bodies of the emitted chunks followed by the
body in progress are exactly the prefix of the text consumed so far. -/
def seededInv (text : Str) (sst : SPackState) : Prop :=
  (sst.chunks.map (fun c => c.body)).flatten ++ sst.body = jsSlice text 0 sst.lastBoundary

theorem spackStep_inv (cfg : ChunkingConfig) (text : Str) {sst : SPackState}
    (b : TextBoundary) (hinv : seededInv text sst) (hle : sst.lastBoundary ≤ b.index) :
    seededInv text (spackStep cfg text sst b) := by
  unfold seededInv at hinv ⊢
  have hseg : jsSlice text 0 sst.lastBoundary ++ jsSlice text sst.lastBoundary b.index =
      jsSlice text 0 b.index := jsSlice_append text (Nat.zero_le _) hle
  unfold spackStep
  dsimp only
  split_ifs <;>
    simp only [List.map_append, List.map_cons, List.map_nil, List.flatten_append,
      List.flatten_cons, List.flatten_nil, List.append_nil] <;>
    rw [← hseg, ← hinv] <;> simp [List.append_assoc]

theorem spackFold_inv (cfg : ChunkingConfig) (text : Str) (bs : List TextBoundary) :
    ∀ {sst : SPackState},
      List.Pairwise (fun a b : TextBoundary => a.index ≤ b.index) bs →
      (∀ b ∈ bs, sst.lastBoundary ≤ b.index) →
      (∀ b ∈ bs, b.index ≤ text.length) →
      sst.lastBoundary ≤ text.length →
      seededInv text sst →
      seededInv text (bs.foldl (spackStep cfg text) sst) ∧
        (bs.foldl (spackStep cfg text) sst).lastBoundary ≤ text.length := by
  induction bs with
  | nil =>
    intro sst _ _ _ hlen hinv
    exact ⟨hinv, hlen⟩
  | cons b bs ih =>
    intro sst hsort hlb hbound hlen hinv
    rw [List.foldl_cons]
    have hstep := spackStep_inv cfg text b hinv (hlb b (List.mem_cons_self b bs))
    have hlast := spackStep_lastBoundary cfg text sst b
    refine ih (List.pairwise_cons.mp hsort).2 ?_ ?_ ?_ hstep
    · intro b' hb'
      rw [hlast]
      exact (List.pairwise_cons.mp hsort).1 b' hb'
    · intro b' hb'
      exact hbound b' (List.mem_cons_of_mem b hb')
    · rw [hlast]
      exact hbound b (List.mem_cons_self b bs)

/-- The packer loop of `chunkTextSeeded`, named for reuse in proofs. -/
def spackRun (cfg : ChunkingConfig) (text : Str) : SPackState :=
  (findTextBoundaries text ++ [TextBoundary.mk text.length .paragraph 100]).foldl
    (spackStep cfg text) (SPackState.mk [] [] [] 0 0)

theorem chunkTextSeeded_run (cfg : ChunkingConfig) (text : Str) :
    chunkTextSeeded cfg text =
      (let st := spackRun cfg text
       let chunks :=
         if 0 < (trim (st.seed ++ st.body)).length then
           st.chunks ++ [SChunk.mk st.seed st.body st.currentTokens]
         else st.chunks
       if chunks.length = 0 ∧ 0 < text.length then
         fallbackSeededGo cfg text (text.length + 1) 0
       else chunks) := rfl

/-- After the full boundary walk the consumed prefix is the whole text: the
emitted bodies plus the trailing body concatenate exactly to the input. -/
theorem spackRun_inv (cfg : ChunkingConfig) (text : Str) :
    ((spackRun cfg text).chunks.map (fun c => c.body)).flatten ++ (spackRun cfg text).body =
      text := by
  unfold spackRun
  rw [List.foldl_concat]
  have hfold := @spackFold_inv cfg text (findTextBoundaries text)
    (SPackState.mk [] [] [] 0 0)
    (findTextBoundaries_sorted text)
    (fun b _ => Nat.zero_le _)
    (findTextBoundaries_le text)
    (Nat.zero_le _)
    (by unfold seededInv; rfl)
  obtain ⟨hinv1, hlb1⟩ := hfold
  have hstep := spackStep_inv cfg text (TextBoundary.mk text.length .paragraph 100) hinv1 hlb1
  unfold seededInv at hstep
  rw [spackStep_lastBoundary] at hstep
  rw [hstep]
  exact jsSlice_zero_len text

/-- On all-whitespace text the fallback window filter never keeps a slice. -/
theorem fallbackSeededGo_ws (cfg : ChunkingConfig) (text : Str)
    (hws : ∀ c ∈ text, isWs c) :
    ∀ fuel i, fallbackSeededGo cfg text fuel i = [] := by
  intro fuel
  induction fuel with
  | zero => intro i; rfl
  | succ fuel ih =>
    intro i
    rw [fallbackSeededGo]
    dsimp only
    by_cases hi : i < text.length
    · rw [if_pos hi]
      have hsub : ∀ c ∈ jsSlice text i (i + cfg.maxCharsPerChunk), isWs c := fun c hc =>
        hws c ((jsSlice_sublist text i (i + cfg.maxCharsPerChunk)).mem hc)
      have htr : trim (jsSlice text i (i + cfg.maxCharsPerChunk)) = [] :=
        trim_eq_nil_iff.mpr hsub
      rw [if_neg (by rw [htr]; simp)]
      exact ih _
    · rw [if_neg hi]

/-- When the boundary walk emits nothing and the trailing chunk is dropped,
the whole text is whitespace. -/
theorem spackRun_ws (cfg : ChunkingConfig) (text : Str)
    (hchunks : (spackRun cfg text).chunks = [])
    (hkeep : ¬ 0 < (trim ((spackRun cfg text).seed ++ (spackRun cfg text).body)).length) :
    ∀ c ∈ text, isWs c := by
  have hinv := spackRun_inv cfg text
  rw [hchunks] at hinv
  simp only [List.map_nil, List.flatten_nil, List.nil_append] at hinv
  have htr : trim ((spackRun cfg text).seed ++ (spackRun cfg text).body) = [] := by
    rcases Nat.eq_zero_or_pos
        (trim ((spackRun cfg text).seed ++ (spackRun cfg text).body)).length with h | h
    · exact List.length_eq_zero.mp h
    · exact absurd h hkeep
  have hall := trim_eq_nil_iff.mp htr
  intro c hc
  exact hall c (List.mem_append.mpr (Or.inr (by rw [hinv]; exact hc)))

/-! ### C2 — coverage -/

/-- The seeded chunk list always covers the text: concatenating, in order,
the bodies of the emitted chunks (each chunk minus its seeded overlap region)
reproduces the input up to whitespace normalization. -/
theorem seeded_cover (cfg : ChunkingConfig) (text : Str) :
    stripWs (((chunkTextSeeded cfg text).map (fun c => c.body)).flatten) = stripWs text := by
  rw [chunkTextSeeded_run]
  dsimp only
  have hinv := spackRun_inv cfg text
  by_cases hkeep : 0 < (trim ((spackRun cfg text).seed ++ (spackRun cfg text).body)).length
  · rw [if_pos hkeep, if_neg (by simp)]
    rw [List.map_append, List.flatten_append]
    simp only [List.map_cons, List.map_nil, List.flatten_cons, List.flatten_nil,
      List.append_nil]
    rw [hinv]
  · rw [if_neg hkeep]
    by_cases hfb : (spackRun cfg text).chunks.length = 0 ∧ 0 < text.length
    · rw [if_pos hfb]
      have hws := spackRun_ws cfg text (List.length_eq_zero.mp hfb.1) hkeep
      rw [fallbackSeededGo_ws cfg text hws _ 0]
      simp only [List.map_nil, List.flatten_nil]
      exact (stripWs_eq_nil_iff.mpr hws).symm
    · rw [if_neg hfb]
      have hbody : ∀ c ∈ (spackRun cfg text).body, isWs c := by
        have htr : trim ((spackRun cfg text).seed ++ (spackRun cfg text).body) = [] := by
          rcases Nat.eq_zero_or_pos
              (trim ((spackRun cfg text).seed ++ (spackRun cfg text).body)).length with h | h
          · exact List.length_eq_zero.mp h
          · exact absurd h hkeep
        have hall := trim_eq_nil_iff.mp htr
        intro c hc
        exact hall c (List.mem_append.mpr (Or.inr hc))
      conv_rhs => rw [← hinv]
      rw [stripWs_append, stripWs_eq_nil_iff.mpr hbody, List.append_nil]

/-- C2: `chunkText` equals the ghost-instrumented packer's output chunk for
chunk (each emitted chunk is `trim (seed ++ body)` for its recorded seed and
body), and the bodies — the chunks with their seeded overlap regions
removed — concatenate, in order, to the whole input text up to whitespace
normalization: no character span is dropped. -/
theorem chunkText_coverage (cfg : ChunkingConfig) (text : Str)
    (hov : cfg.overlapChars ≤ cfg.maxCharsPerChunk) :
    chunkText cfg text = (chunkTextSeeded cfg text).map (fun c => trim (c.seed ++ c.body)) ∧
    stripWs (((chunkTextSeeded cfg text).map (fun c => c.body)).flatten) = stripWs text :=
  ⟨chunkText_eq_seeded cfg text hov, seeded_cover cfg text⟩

/-- Witness for C2 at the default configuration on a concrete text. -/
theorem chunkText_coverage_witness :
    DEFAULT_CHUNKING_CONFIG.overlapChars ≤ DEFAULT_CHUNKING_CONFIG.maxCharsPerChunk ∧
    (chunkText DEFAULT_CHUNKING_CONFIG (("Hi. There").toList) =
      (chunkTextSeeded DEFAULT_CHUNKING_CONFIG (("Hi. There").toList)).map
        (fun c => trim (c.seed ++ c.body)) ∧
    stripWs (((chunkTextSeeded DEFAULT_CHUNKING_CONFIG (("Hi. There").toList)).map
        (fun c => c.body)).flatten) = stripWs (("Hi. There").toList)) :=
  ⟨by decide, chunkText_coverage DEFAULT_CHUNKING_CONFIG (("Hi. There").toList) (by decide)⟩

/-! ### C5 — the chunk minimum -/

theorem spackStep_min (cfg : ChunkingConfig) (text : Str) {sst : SPackState}
    (b : TextBoundary)
    (hmin : ∀ c ∈ sst.chunks, cfg.minTokensPerChunk ≤ c.tokens) :
    ∀ c ∈ (spackStep cfg text sst b).chunks, cfg.minTokensPerChunk ≤ c.tokens := by
  unfold spackStep
  dsimp only
  split_ifs with h1 h2 h3
  · intro c hc
    rcases List.mem_append.mp hc with hold | hnew
    · exact hmin c hold
    · rcases List.mem_cons.mp hnew with heq | habs
      · rw [heq]
        exact h2
      · simp at habs
  · intro c hc
    rcases List.mem_append.mp hc with hold | hnew
    · exact hmin c hold
    · rcases List.mem_cons.mp hnew with heq | habs
      · rw [heq]
        exact h2
      · simp at habs
  · exact hmin
  · exact hmin

theorem spackFold_min (cfg : ChunkingConfig) (text : Str) (bs : List TextBoundary) :
    ∀ {sst : SPackState},
      (∀ c ∈ sst.chunks, cfg.minTokensPerChunk ≤ c.tokens) →
      ∀ c ∈ (bs.foldl (spackStep cfg text) sst).chunks, cfg.minTokensPerChunk ≤ c.tokens := by
  induction bs with
  | nil => intro sst hmin; exact hmin
  | cons b bs ih =>
    intro sst hmin
    rw [List.foldl_cons]
    exact ih (spackStep_min cfg text b hmin)

theorem spackRun_min (cfg : ChunkingConfig) (text : Str) :
    ∀ c ∈ (spackRun cfg text).chunks, cfg.minTokensPerChunk ≤ c.tokens := by
  unfold spackRun
  exact spackFold_min cfg text _ (by intro c hc; simp at hc)

/-- C5, amended: every chunk emitted by the packer, except possibly the final
trailing one, was finalized under the minimum-size guard: the **running token
estimate at the moment of emission** (the `tokens` ghost field) is at least
`minTokensPerChunk`.  (The *recomputed* `estimateTokenCount` of the trimmed
chunk text can still fall below the minimum — see the counterexample.) -/
theorem chunk_min_tokens_at_emission (cfg : ChunkingConfig) (text : Str) :
    ∀ i, i + 1 < (chunkTextSeeded cfg text).length →
      cfg.minTokensPerChunk ≤ ((chunkTextSeeded cfg text).getD i default).tokens := by
  intro i h
  have hmin := spackRun_min cfg text
  rw [chunkTextSeeded_run] at h ⊢
  dsimp only at h ⊢
  by_cases hkeep : 0 < (trim ((spackRun cfg text).seed ++ (spackRun cfg text).body)).length
  · rw [if_pos hkeep] at h ⊢
    rw [if_neg (by simp)] at h ⊢
    have hi : i < (spackRun cfg text).chunks.length := by
      rw [List.length_append, List.length_cons, List.length_nil] at h
      omega
    rw [List.getD_eq_getElem _ _ (by
      rw [List.length_append, List.length_cons, List.length_nil]
      omega), List.getElem_append_left hi]
    exact hmin _ (List.getElem_mem hi)
  · rw [if_neg hkeep] at h ⊢
    by_cases hfb : (spackRun cfg text).chunks.length = 0 ∧ 0 < text.length
    · rw [if_pos hfb] at h
      have hws := spackRun_ws cfg text (List.length_eq_zero.mp hfb.1) hkeep
      rw [fallbackSeededGo_ws cfg text hws _ 0] at h
      simp at h
    · rw [if_neg hfb] at h ⊢
      have hi : i < (spackRun cfg text).chunks.length := by omega
      rw [List.getD_eq_getElem _ _ hi]
      exact hmin _ (List.getElem_mem hi)

/-- The configuration of the C5 counterexample and witness:
`maxTokensPerChunk = 3`, `minTokensPerChunk = 2`, no overlap. -/
def cexCfg5 : ChunkingConfig :=
  { maxTokensPerChunk := 3
    minTokensPerChunk := 2
    overlapTokens := 0
    chunksPerGroup := 2
    maxChunksPerGroup := 3
    maxCharsPerChunk := 100
    minCharsPerChunk := 1
    overlapChars := 10 }

/-- The text of the C5 counterexample: three 5-character paragraphs. -/
def cexText5 : Str := ("Ax \n\nBx \n\nCx \n\n").toList

/-- C5, counterexample: the packer finalizes each paragraph under the guard
`currentTokens ≥ 2` (the running estimate counts the trailing whitespace),
but the trimmed chunks `"Ax"`, `"Bx"`, `"Cx"` each re-estimate to 1 token —
so **two** chunks besides the final one sit below the minimum, where the
claim allows at most one exception. -/
theorem chunk_min_tokens_cex :
    chunkText cexCfg5 cexText5 = [("Ax").toList, ("Bx").toList, ("Cx").toList] ∧
    2 ≤ ((chunkText cexCfg5 cexText5).filter
      (fun c => decide (estimateTokenCount c < cexCfg5.minTokensPerChunk))).length := by
  decide

/-- Witness for C5's amended theorem: the first emitted chunk of the
counterexample run carries an emission-time estimate of 2 ≥ the minimum. -/
theorem chunk_min_tokens_at_emission_witness :
    0 + 1 < (chunkTextSeeded cexCfg5 cexText5).length ∧
    cexCfg5.minTokensPerChunk ≤ ((chunkTextSeeded cexCfg5 cexText5).getD 0 default).tokens :=
  ⟨by decide, chunk_min_tokens_at_emission cexCfg5 cexText5 0 (by decide)⟩
